import Mathlib

/-!
Verification of the `download.py` batch launcher from hitbox/myutils.

The embedding is shallow: every definition below is a direct translation of
a function in `src/download.py`.  Time is modelled as microseconds since a
fixed epoch (the resolution of Python `datetime`), so a `datetime.datetime`
value is an `Int`, a `datetime.time` value is the microsecond offset from
midnight, `dt.date()` corresponds to flooring to a day boundary, and a
`datetime.timedelta` is an `Int` number of microseconds.
`timedelta.total_seconds()` returns a float; for the microsecond magnitudes
this program produces the float arithmetic is exact, so it is modelled as
the rational `microseconds / 1000000`.
-/

namespace Myutils

/-- One day in microseconds (the unit of the `datetime` model). -/
def dayUs : Int := 86400000000

/-- A `from`/`to` configuration bound: either a date-agnostic
`datetime.time` (`tod`, microseconds from midnight) or a full
`datetime.datetime` (`dt`, microseconds since the epoch),
reflecting the two formats accepted by `resolve_datetime`. -/
inductive Bound where
  | tod (t : Int)
  | dt (d : Int)
deriving DecidableEq

/-- `datetime.datetime.combine(now.date(), b)` when `b` is a `time`, the
identity when `b` is already a `datetime` — the `isinstance` normalization
at the top of `Interval.match` and `Interval.duration`. -/
def resolveBound (b : Bound) (now : Int) : Int :=
  match b with
  | .tod t => now.fdiv dayUs * dayUs + t
  | .dt d => d

/-- `datetime.datetime.combine(now.date() + timedelta(days=1), time())`:
midnight at the start of the day after `now`. -/
def nextMidnight (now : Int) : Int :=
  (now.fdiv dayUs + 1) * dayUs

/-- An `[interval]` section: `Interval(from_dt, to_dt)` in `download.py`. -/
structure Interval where
  from_dt : Bound
  to_dt : Bound
deriving DecidableEq

/-- `Interval.match(dt)`: normalize each bound to `dt`'s date, then compare
with a strict `from_dt < to_dt` branch test. -/
def Interval.matchAt (i : Interval) (now : Int) : Bool :=
  let from_dt := resolveBound i.from_dt now
  let to_dt := resolveBound i.to_dt now
  if from_dt < to_dt then
    decide (from_dt ≤ now) && decide (now ≤ to_dt)
  else
    decide (now ≥ from_dt) || decide (now ≤ to_dt)

/-- `Interval.duration(dt)`: the remaining length of the window as a
timedelta (microseconds). -/
def Interval.duration (i : Interval) (now : Int) : Int :=
  let to_dt := resolveBound i.to_dt now
  if now ≤ to_dt then
    to_dt - now
  else
    (nextMidnight now - now) + ((to_dt + dayUs) - nextMidnight now)

/-- `timedelta.total_seconds()` for a microsecond timedelta. -/
def totalSeconds (us : Int) : ℚ :=
  (us : ℚ) / 1000000

/-!
Ordered string-keyed mappings.  Python `dict`s preserve insertion order, so
a mapping is an association list; `dictSet` and `dictUpdate` reproduce
`d[k] = v` and `d.update(other)` (replacing in place keeps the key's
original position, a new key is appended).  Option values coming out of
`configparser` are strings; a value can also be Python `None` (e.g. a
`Spec` built with `urls=None`), so values are `Option String`.
-/

/-- A Python string-or-None option value. -/
abbrev OptVal := Option String

/-- An insertion-ordered Python `dict` with string keys. -/
abbrev Dict := List (String × OptVal)

/-- `d.get(k)` / `d[k]`-style lookup (first matching key). -/
def dictGet (m : Dict) (k : String) : Option OptVal :=
  (m.find? (fun p => p.1 = k)).map (fun p => p.2)

/-- `d[k] = v`: replace in place (keeping the key's position) if the key
exists, else append at the end. -/
def dictSet : Dict → String → OptVal → Dict
  | [], k, v => [(k, v)]
  | p :: m, k, v => if p.1 = k then (k, v) :: m else p :: dictSet m k v

/-- `m.update(other)`: apply each binding of `other` to `m` in order. -/
def dictUpdate (m other : Dict) : Dict :=
  other.foldl (fun acc p => dictSet acc p.1 p.2) m

/-- The `IS_FLAG_VALUE = ':flag:'` sentinel marking a value-less option. -/
def IS_FLAG_VALUE : String := ":flag:"

/-- Python truthiness of a string-or-None (`None` and `''` are falsy). -/
def truthyStr : Option String → Bool
  | none => false
  | some s => !s.isEmpty

/-- Python truthiness of `Spec.enabled` (`None` and `False` are falsy). -/
def truthyEnabled : Option Bool → Bool
  | some true => true
  | _ => false

/-!
The specification / interval data model (`Spec`, `DownloadData`).
Environment handling (`env`, `insert_path`) carries no logic the claims
touch and is omitted; a batch file's contents are supplied by a total map
`fs : String → List String` from path to lines.
-/

/-- A `Spec(name=..., enabled=..., urls=..., **extra)` job description. -/
structure Spec where
  name : String
  enabled : Option Bool
  urls : Option String
  extra : Dict
deriving DecidableEq

/-- `Spec.get_batch`: `self.extra.get('batch')`.  A missing key and a
stored `None` both behave as Python `None`. -/
def Spec.getBatch (s : Spec) : Option String :=
  match dictGet s.extra "batch" with
  | some (some v) => some v
  | _ => none

/-- `DownloadData`: parsed registry handed to the run loop.  `intervals`
is the list of `(section_name, Interval, remaining)` triples produced by
`parse_interval` (already `[]` when intervals are off). -/
structure DownloadData where
  python_exe : String
  specs : List Spec
  jump_list : List String
  intervals : List (String × Interval × Dict)
deriving DecidableEq

/-- `DownloadData.applicable_interval(now)`: the intervals whose window
matches `now`. -/
def DownloadData.applicableInterval (d : DownloadData) (now : Int) :
    List (String × Interval × Dict) :=
  d.intervals.filter (fun e => e.2.1.matchAt now)

/-- Python `str.strip()` (whitespace characters stripped from both ends). -/
def pyIsSpace (c : Char) : Bool :=
  c = ' ' || c = '\t' || c = '\n' || c = '\r' || c = '\x0b' || c = '\x0c'

/-- Python `line.strip()`. -/
def pyStrip (s : String) : String :=
  ⟨((s.data.dropWhile pyIsSpace).reverse.dropWhile pyIsSpace).reverse⟩

/-- `line.startswith('#')`. -/
def startsWithHash (s : String) : Bool :=
  match s.data with
  | c :: _ => c = '#'
  | [] => false

/-- `has_non_empty(path)` applied to the lines of the batch file: some
line, once stripped, is non-blank and is not a `#` comment.  (The Python
function returns `True` or falls off the end returning `None`; both
callers use it as a boolean.) -/
def hasNonEmpty (lines : List String) : Bool :=
  lines.any (fun line =>
    let l := pyStrip line
    !l.isEmpty && !startsWithHash l)

/-- `DownloadData.iter_enabled_specs`: keep a spec iff it is enabled and
not inert — it has truthy `urls`, or a truthy `batch` option naming a file
with at least one non-blank non-comment line. -/
def iterEnabledSpecs (fs : String → List String) (specs : List Spec) :
    List Spec :=
  specs.filter (fun spec =>
    truthyEnabled spec.enabled &&
    (truthyStr spec.urls ||
      match spec.getBatch with
      | none => false
      | some b => !b.isEmpty && hasNonEmpty (fs b)))

/-- `Spec.update_kwargs_for_timeout`: with the matching intervals at
`now`, more than one is a `ValueError`; exactly one sets
`run_kwargs['timeout']` to the interval's remaining duration in seconds
and merges the interval's `remaining` overrides into `extra`.  Returns
`(timeout, extra)` in place of the Python in-place mutation. -/
def updateKwargsForTimeout (downloads : DownloadData) (now : Int)
    (extra : Dict) : Except String (Option ℚ × Dict) :=
  let matching := downloads.applicableInterval now
  if matching.length > 1 then
    .error "Multiple matching intervals."
  else
    match matching with
    | [(_, interval, remaining)] =>
        .ok (some (totalSeconds (interval.duration now)),
             dictUpdate extra remaining)
    | _ => .ok (none, extra)

/-- `add_remaining(args, data)`: for each `(key, val)` in order, skip
`urls` keys and `None` values, emit `--key` alone for the flag sentinel,
else `--key` followed by the value. -/
def addRemaining (args : List String) (data : Dict) : List String :=
  data.foldl (fun acc p =>
    if p.1 = "urls" ∨ p.2 = none then acc
    else if p.2 = some IS_FLAG_VALUE then acc ++ ["--" ++ p.1]
    else acc ++ ["--" ++ p.1, (p.2).getD ""]) args

/-- Spec-side rendering of one merged options mapping, transcribed from
the specification's words ("for every `(key, value)` in the merged options
where value is not null and key is not `urls`: emit a `--key` flag,
followed by the value unless the value is the boolean-flag marker"); to be
compared against the source-side `addRemaining`. -/
def specOptionTokens (data : Dict) : List String :=
  data.flatMap (fun p =>
    if p.1 = "urls" then []
    else
      match p.2 with
      | none => []
      | some v => if v = IS_FLAG_VALUE then ["--" ++ p.1] else ["--" ++ p.1, v])

/-- The tail of `Spec.cmdargs` after options are merged: base invocation,
merged options, pass-through `dlargs`, then `urls` if truthy. -/
def buildArgVector (exe : String) (extra : Dict) (dlargs : List String)
    (urls : Option String) : List String :=
  let args := [exe, "-m", "yt_dlp"]
  let args := addRemaining args extra
  let args := args ++ dlargs
  if truthyStr urls then args ++ [urls.getD ""] else args

/-- `Spec.cmdargs(dlargs, downloads, use_intervals)`: returns the argument
vector and the (optional) timeout from `run_kwargs`.  The only error is
the interval-ambiguity `ValueError` raised inside
`update_kwargs_for_timeout`. -/
def Spec.cmdargs (spec : Spec) (dlargs : List String)
    (downloads : DownloadData) (useIntervals : Bool) (now : Int) :
    Except String (List String × Option ℚ) := do
  let (timeout, extra) ←
    if useIntervals then
      updateKwargsForTimeout downloads now spec.extra
    else
      .ok (none, spec.extra)
  .ok (buildArgVector downloads.python_exe extra dlargs spec.urls, timeout)

/-!
The run loop (`run` in `download.py`).  `subprocess.run` is abstracted by
an oracle giving the outcome of the n-th actual process invocation:
it returns a completed process carrying a return code (`subprocess.run`
is called without `check`, so a non-zero exit does not raise), or raises
`TimeoutExpired`, `KeyboardInterrupt`, or an OS-level launch error.
The loop's observable behaviour is a trace of events (commands printed in
dry mode, processes invoked, `rtouch` notifications fired) plus how the
loop ended: normally / by `break` (`error = none`) or by a propagating
exception (`error = some _`).
-/

/-- The outcome of one `subprocess.run` call. -/
inductive Outcome where
  | completed (returncode : Int)
  | timedOut
  | interrupted
  | launchError
deriving DecidableEq

/-- An observable side effect of the run loop. -/
inductive Event where
  | printed (name : String)
  | invoked (name : String)
  | notified (name : String)
deriving DecidableEq

/-- An exception propagating out of the run loop. -/
inductive RunError where
  | config (msg : String)
  | launch
deriving DecidableEq

/-- The run loop's observable result. -/
structure RunTrace where
  events : List Event
  error : Option RunError
deriving DecidableEq

/-- The body of `run`'s `for spec in downloads.iter_enabled_specs()` loop
over a remaining list of specs, `idx` counting the invocations already
performed.  Per spec: build the command (a `ValueError` there propagates);
in dry mode print and continue; otherwise invoke, and on completion fire
the `rtouch` hook (when enabled and importable), on `TimeoutExpired` pass,
on `KeyboardInterrupt` break, on a launch error propagate. -/
def runAux (downloads : DownloadData) (dlargs : List String)
    (dry useIntervals useRtouch rtouchAvail : Bool) (now : Int)
    (oracle : Nat → Outcome) : List Spec → Nat → RunTrace
  | [], _ => ⟨[], none⟩
  | spec :: rest, idx =>
    match spec.cmdargs dlargs downloads useIntervals now with
    | .error msg => ⟨[], some (.config msg)⟩
    | .ok _ =>
      if dry then
        let t := runAux downloads dlargs dry useIntervals useRtouch
          rtouchAvail now oracle rest idx
        ⟨.printed spec.name :: t.events, t.error⟩
      else
        match oracle idx with
        | .completed _ =>
          let t := runAux downloads dlargs dry useIntervals useRtouch
            rtouchAvail now oracle rest (idx + 1)
          ⟨.invoked spec.name ::
            ((if useRtouch && rtouchAvail then [.notified spec.name] else [])
              ++ t.events), t.error⟩
        | .timedOut =>
          let t := runAux downloads dlargs dry useIntervals useRtouch
            rtouchAvail now oracle rest (idx + 1)
          ⟨.invoked spec.name :: t.events, t.error⟩
        | .interrupted => ⟨[.invoked spec.name], none⟩
        | .launchError => ⟨[.invoked spec.name], some .launch⟩

/-- `run(...)` from the point where the registry is parsed: loop over the
enabled, non-inert specs. -/
def run (downloads : DownloadData) (fs : String → List String)
    (dlargs : List String) (dry useIntervals useRtouch rtouchAvail : Bool)
    (now : Int) (oracle : Nat → Outcome) : RunTrace :=
  runAux downloads dlargs dry useIntervals useRtouch rtouchAvail now oracle
    (iterEnabledSpecs fs downloads.specs) 0

/-!
Config parsing (`parse_spec`, `safepop`).  A config section is modelled as
its fully resolved view — an ordered list of string key/value pairs, with
`configparser` default-section fallback and interpolation already applied
(so "the section omits a key" means the resolved view has no binding for
it).  `safepop(section, 'enabled', 'getboolean')` calls
`section.getboolean('enabled', None)`: a missing key yields the `None`
default, a present key is coerced by `configparser`'s boolean table and an
unrecognized value raises `ValueError`.
-/

/-- A resolved `configparser` section. -/
abbrev Section := List (String × String)

/-- Lookup in a resolved section. -/
def sectionGet (s : Section) (k : String) : Option String :=
  (s.find? (fun p => p.1 = k)).map (fun p => p.2)

/-- Remove a key from a section (`del section[key]`, ignoring absence). -/
def sectionDel (s : Section) (k : String) : Section :=
  s.filter (fun p => p.1 ≠ k)

/-- Python `str.lower()` (ASCII letters; config booleans are ASCII). -/
def pyLower (s : String) : String :=
  ⟨s.data.map Char.toLower⟩

/-- `configparser`'s `getboolean` coercion table. -/
def getboolean (v : String) : Except String Bool :=
  let s := pyLower v
  if s = "1" ∨ s = "yes" ∨ s = "true" ∨ s = "on" then .ok true
  else if s = "0" ∨ s = "no" ∨ s = "false" ∨ s = "off" then .ok false
  else .error "Not a boolean."

/-- `parse_spec(section)`: pop `enabled` (boolean-coerced, `None` default)
and `urls` (string, `None` default), keep the remaining keys verbatim as
`extra`. -/
def parseSpec (name : String) (s : Section) : Except String Spec := do
  let enabled ←
    match sectionGet s "enabled" with
    | none => .ok none
    | some v => (getboolean v).map some
  let s := sectionDel s "enabled"
  let urls := sectionGet s "urls"
  let s := sectionDel s "urls"
  .ok { name := name, enabled := enabled, urls := urls,
        extra := s.map (fun p => (p.1, some p.2)) }

/-!
Spec ordering (`spec_order` and the `sorted(..., key=spec_order(jumps))`
call in `parse_main`).  `spec_order` returns `jumps.index(name)` for a
listed name and `math.inf` for an unlisted one; since every list index is
strictly below `jumps.length`, mapping `inf` to `jumps.length` is an
order-isomorphic `Nat` embedding of the key.  Python's `sorted` is a
stable sort, which insertion sort (inserting a new element before the
first existing element of key ≥ its own) realises exactly.
-/

/-- `list.index` as an option: position of the first occurrence. -/
def listIndex (x : String) : List String → Option Nat
  | [] => none
  | j :: js => if j = x then some 0 else (listIndex x js).map (· + 1)

/-- `spec_order(jumps)(spec)` with `math.inf` rendered as `jumps.length`. -/
def specOrderKey (jumps : List String) (s : Spec) : Nat :=
  match listIndex s.name jumps with
  | some i => i
  | none => jumps.length

/-- Stable insertion of `x` into `l`: `x` goes before the first element
whose key is not smaller (so after existing equal keys of the sorted
prefix, before later elements — matching a stable sort, where `x` came
earlier in the original list than everything in `l`). -/
def orderedInsertKey {α : Type} (key : α → Nat) (x : α) :
    List α → List α
  | [] => [x]
  | y :: ys =>
    if key x ≤ key y then x :: y :: ys else y :: orderedInsertKey key x ys

/-- Stable sort by a `Nat` key (models Python `sorted(l, key=key)`). -/
def stableSortByKey {α : Type} (key : α → Nat) : List α → List α
  | [] => []
  | x :: xs => orderedInsertKey key x (stableSortByKey key xs)

/-- `sorted(specs_from_config(cp, keys), key=spec_order(jump_list))`. -/
def sortSpecs (jumps : List String) (specs : List Spec) : List Spec :=
  stableSortByKey (specOrderKey jumps) specs

/-! ### Helper lemmas -/

theorem dictGet_dictSet_self (m : Dict) (k : String) (v : OptVal) :
    dictGet (dictSet m k v) k = some v := by
  induction m with
  | nil => simp [dictGet, dictSet, List.find?]
  | cons p m ih =>
    by_cases h : p.1 = k
    · simp [dictGet, dictSet, h, List.find?]
    · simpa [dictGet, dictSet, h, List.find?] using ih

theorem dictGet_dictSet_ne (m : Dict) (k' k : String) (v : OptVal)
    (h : k' ≠ k) : dictGet (dictSet m k' v) k = dictGet m k := by
  induction m with
  | nil => simp [dictGet, dictSet, List.find?, h]
  | cons p m ih =>
    by_cases hp : p.1 = k'
    · simp [dictGet, dictSet, hp, List.find?, h]
    · by_cases hk : p.1 = k
      · simp [dictGet, dictSet, hp, hk, List.find?, Ne.symm h]
      · simpa [dictGet, dictSet, hp, hk, List.find?] using ih

theorem dictGet_dictUpdate_not_mem (o m : Dict) (k : String)
    (h : k ∉ o.map Prod.fst) :
    dictGet (dictUpdate m o) k = dictGet m k := by
  induction o generalizing m with
  | nil => rfl
  | cons p o ih =>
    simp only [List.map_cons, List.mem_cons, not_or] at h
    have : dictUpdate m (p :: o) = dictUpdate (dictSet m p.1 p.2) o := rfl
    rw [this, ih _ h.2, dictGet_dictSet_ne _ _ _ _ (fun hx => h.1 hx.symm)]

theorem dictGet_dictUpdate_mem (o m : Dict) (k : String)
    (hnd : (o.map Prod.fst).Nodup) (hmem : k ∈ o.map Prod.fst) :
    dictGet (dictUpdate m o) k = dictGet o k := by
  induction o generalizing m with
  | nil => cases hmem
  | cons p o ih =>
    have hstep : dictUpdate m (p :: o) = dictUpdate (dictSet m p.1 p.2) o := rfl
    simp only [List.map_cons, List.nodup_cons] at hnd
    by_cases hp : p.1 = k
    · subst hp
      rw [hstep, dictGet_dictUpdate_not_mem _ _ _ hnd.1, dictGet_dictSet_self]
      simp [dictGet, List.find?]
    · have hmem' : k ∈ o.map Prod.fst := by
        rw [List.map_cons] at hmem
        rcases List.mem_cons.1 hmem with h | h
        · exact absurd h.symm hp
        · exact h
      rw [hstep, ih _ hnd.2 hmem']
      simp [dictGet, List.find?, hp]

theorem addRemaining_eq_append (data : Dict) (args : List String) :
    addRemaining args data = args ++ specOptionTokens data := by
  induction data generalizing args with
  | nil => simp [addRemaining, specOptionTokens]
  | cons p data ih =>
    have hstep : ∀ a, addRemaining a (p :: data) =
        addRemaining
          (if p.1 = "urls" ∨ p.2 = none then a
           else if p.2 = some IS_FLAG_VALUE then a ++ ["--" ++ p.1]
           else a ++ ["--" ++ p.1, (p.2).getD ""]) data := by
      intro a
      simp only [addRemaining, List.foldl_cons]
    rw [hstep, ih]
    rcases hv : p.2 with _ | v
    · by_cases hu : p.1 = "urls" <;>
        simp [specOptionTokens, hu, hv]
    · by_cases hu : p.1 = "urls"
      · simp [specOptionTokens, hu, hv]
      · by_cases hf : v = IS_FLAG_VALUE <;>
          simp [specOptionTokens, hu, hv, hf]

theorem perm_orderedInsertKey {α : Type} (key : α → Nat) (x : α)
    (l : List α) : List.Perm (orderedInsertKey key x l) (x :: l) := by
  induction l with
  | nil => exact List.Perm.refl _
  | cons y ys ih =>
    by_cases h : key x ≤ key y
    · simp [orderedInsertKey, h]
    · simp only [orderedInsertKey, if_neg h]
      exact (ih.cons y).trans (List.Perm.swap x y ys)

theorem mem_orderedInsertKey {α : Type} (key : α → Nat) (x z : α)
    (l : List α) : z ∈ orderedInsertKey key x l ↔ z = x ∨ z ∈ l := by
  rw [(perm_orderedInsertKey key x l).mem_iff, List.mem_cons]

theorem pairwise_orderedInsertKey {α : Type} (key : α → Nat) (x : α)
    (l : List α) (h : l.Pairwise (fun a b => key a ≤ key b)) :
    (orderedInsertKey key x l).Pairwise (fun a b => key a ≤ key b) := by
  induction l with
  | nil => simp [orderedInsertKey]
  | cons y ys ih =>
    rcases List.pairwise_cons.1 h with ⟨hy, hys⟩
    by_cases hxy : key x ≤ key y
    · rw [orderedInsertKey, if_pos hxy]
      refine List.pairwise_cons.2 ⟨?_, h⟩
      intro b hb
      rcases List.mem_cons.1 hb with rfl | hb
      · exact hxy
      · exact le_trans hxy (hy b hb)
    · rw [orderedInsertKey, if_neg hxy]
      refine List.pairwise_cons.2 ⟨?_, ih hys⟩
      intro b hb
      rcases (mem_orderedInsertKey key x b ys).1 hb with rfl | hb
      · exact le_of_not_le hxy
      · exact hy b hb

theorem perm_stableSortByKey {α : Type} (key : α → Nat) (l : List α) :
    List.Perm (stableSortByKey key l) l := by
  induction l with
  | nil => exact List.Perm.refl _
  | cons x xs ih =>
    exact (perm_orderedInsertKey key x _).trans (ih.cons x)

theorem pairwise_stableSortByKey {α : Type} (key : α → Nat) (l : List α) :
    (stableSortByKey key l).Pairwise (fun a b => key a ≤ key b) := by
  induction l with
  | nil => simp [stableSortByKey]
  | cons x xs ih => exact pairwise_orderedInsertKey key x _ ih

theorem filter_orderedInsertKey {α : Type} (key : α → Nat) (x : α)
    (l : List α) (n : Nat) (h : l.Pairwise (fun a b => key a ≤ key b)) :
    (orderedInsertKey key x l).filter (fun a => key a == n) =
      if key x = n then x :: l.filter (fun a => key a == n)
      else l.filter (fun a => key a == n) := by
  induction l with
  | nil =>
    rw [orderedInsertKey, List.filter_cons, List.filter_nil]
    by_cases hx : key x = n
    · rw [if_pos (by simp [hx]), if_pos hx]
    · rw [if_neg (by simp [hx]), if_neg hx]
  | cons y ys ih =>
    rcases List.pairwise_cons.1 h with ⟨_, hys⟩
    by_cases hxy : key x ≤ key y
    · rw [orderedInsertKey, if_pos hxy, List.filter_cons]
      by_cases hx : key x = n
      · rw [if_pos (by simp [hx]), if_pos hx]
      · rw [if_neg (by simp [hx]), if_neg hx]
    · have hyx : key y < key x := lt_of_not_le hxy
      rw [orderedInsertKey, if_neg hxy, List.filter_cons, ih hys]
      by_cases hx : key x = n
      · have hy : ¬ key y = n := by omega
        rw [if_neg (by simp [hy]), if_pos hx, if_pos hx, List.filter_cons,
          if_neg (by simp [hy])]
      · rw [if_neg hx, if_neg hx, List.filter_cons]

theorem filter_stableSortByKey {α : Type} (key : α → Nat) (l : List α)
    (n : Nat) :
    (stableSortByKey key l).filter (fun a => key a == n) =
      l.filter (fun a => key a == n) := by
  induction l with
  | nil => rfl
  | cons x xs ih =>
    rw [stableSortByKey,
      filter_orderedInsertKey key x (stableSortByKey key xs) n
        (pairwise_stableSortByKey key xs),
      List.filter_cons]
    by_cases hx : key x = n
    · rw [if_pos hx, if_pos (by simp [hx]), ih]
    · rw [if_neg hx, if_neg (by simp [hx]), ih]

theorem listIndex_lt_length (x : String) (l : List String) (i : Nat)
    (h : listIndex x l = some i) : i < l.length := by
  induction l generalizing i with
  | nil => cases h
  | cons j js ih =>
    rw [listIndex] at h
    by_cases hj : j = x
    · rw [if_pos hj] at h
      cases h
      simp
    · rw [if_neg hj] at h
      cases hji : listIndex x js with
      | none => rw [hji] at h; cases h
      | some i' =>
        rw [hji] at h
        cases h
        have := ih i' hji
        simp only [List.length_cons]
        omega

theorem cmdargs_ambiguity (spec : Spec) (dlargs : List String)
    (downloads : DownloadData) (now : Int)
    (hmulti : 1 < (downloads.applicableInterval now).length) :
    spec.cmdargs dlargs downloads true now =
      .error "Multiple matching intervals." := by
  rw [Spec.cmdargs, if_pos rfl]
  rw [updateKwargsForTimeout, if_pos hmulti]
  rfl

theorem runAux_event_of_mem (downloads : DownloadData)
    (dlargs : List String) (dry useIntervals useRtouch rtouchAvail : Bool)
    (now : Int) (oracle : Nat → Outcome) (l : List Spec) (idx : Nat)
    (n : String)
    (h : Event.invoked n ∈ (runAux downloads dlargs dry useIntervals
            useRtouch rtouchAvail now oracle l idx).events ∨
         Event.printed n ∈ (runAux downloads dlargs dry useIntervals
            useRtouch rtouchAvail now oracle l idx).events) :
    ∃ s ∈ l, s.name = n := by
  induction l generalizing idx with
  | nil => simp [runAux] at h
  | cons spec rest ih =>
    rw [runAux] at h
    rcases hc : spec.cmdargs dlargs downloads useIntervals now with msg | p <;>
      rw [hc] at h
    · simp at h
    · by_cases hdry : dry
      · rw [if_pos hdry] at h
        rcases h with h | h
        · simp only [List.mem_cons, reduceCtorEq, false_or] at h
          rcases ih idx (Or.inl h) with ⟨s, hs, hn⟩
          exact ⟨s, List.mem_cons_of_mem spec hs, hn⟩
        · rcases List.mem_cons.1 h with heq | h
          · cases heq
            exact ⟨spec, List.mem_cons_self spec rest, rfl⟩
          · rcases ih idx (Or.inr h) with ⟨s, hs, hn⟩
            exact ⟨s, List.mem_cons_of_mem spec hs, hn⟩
      · rw [if_neg hdry] at h
        rcases ho : oracle idx with rc | _ | _ | _ <;> rw [ho] at h
        · rcases h with h | h
          · rcases List.mem_cons.1 h with heq | h
            · cases heq
              exact ⟨spec, List.mem_cons_self spec rest, rfl⟩
            · rcases List.mem_append.1 h with h | h
              · by_cases hr : (useRtouch && rtouchAvail) = true <;>
                  simp [hr] at h
              · rcases ih (idx + 1) (Or.inl h) with ⟨s, hs, hn⟩
                exact ⟨s, List.mem_cons_of_mem spec hs, hn⟩
          · simp only [List.mem_cons, reduceCtorEq, false_or,
              List.mem_append] at h
            rcases h with h | h
            · by_cases hr : (useRtouch && rtouchAvail) = true <;>
                simp [hr] at h
            · rcases ih (idx + 1) (Or.inr h) with ⟨s, hs, hn⟩
              exact ⟨s, List.mem_cons_of_mem spec hs, hn⟩
        · rcases h with h | h
          · rcases List.mem_cons.1 h with heq | h
            · cases heq
              exact ⟨spec, List.mem_cons_self spec rest, rfl⟩
            · rcases ih (idx + 1) (Or.inl h) with ⟨s, hs, hn⟩
              exact ⟨s, List.mem_cons_of_mem spec hs, hn⟩
          · simp only [List.mem_cons, reduceCtorEq, false_or] at h
            rcases ih (idx + 1) (Or.inr h) with ⟨s, hs, hn⟩
            exact ⟨s, List.mem_cons_of_mem spec hs, hn⟩
        · rcases h with h | h
          · rcases List.mem_cons.1 h with heq | h
            · cases heq
              exact ⟨spec, List.mem_cons_self spec rest, rfl⟩
            · simp at h
          · simp at h
        · rcases h with h | h
          · rcases List.mem_cons.1 h with heq | h
            · cases heq
              exact ⟨spec, List.mem_cons_self spec rest, rfl⟩
            · simp at h
          · simp at h

/-! ### Claim theorems -/

/-- C1, counterexample: the interval whose `from` and `to` both normalize
to midnight (`from == to`) matches noon, although noon is not between
`from` and `to`; so the boundary case `from == to` does not behave as the
non-wrapping branch the claim assigns it to. -/
theorem match_from_eq_to_counterexample :
    resolveBound (Bound.tod 0) 43200000000 ≤
      resolveBound (Bound.tod 0) 43200000000 ∧
    Interval.matchAt ⟨Bound.tod 0, Bound.tod 0⟩ 43200000000 = true ∧
    ¬(resolveBound (Bound.tod 0) 43200000000 ≤ 43200000000 ∧
      (43200000000 : Int) ≤ resolveBound (Bound.tod 0) 43200000000) := by
  decide

/-- C1, amended: after normalizing the bounds to the instant's date, if
`from < to` (strictly) then match iff `from <= t <= to`; if `from >= to`
— the branch the code also takes when `from == to` — match iff
`t >= from` or `t <= to` (so an interval with equal bounds matches every
instant). -/
theorem match_characterization (i : Interval) (t : Int) :
    i.matchAt t = true ↔
      (if resolveBound i.from_dt t < resolveBound i.to_dt t then
        resolveBound i.from_dt t ≤ t ∧ t ≤ resolveBound i.to_dt t
      else
        t ≥ resolveBound i.from_dt t ∨ t ≤ resolveBound i.to_dt t) := by
  simp only [Interval.matchAt]
  by_cases h : resolveBound i.from_dt t < resolveBound i.to_dt t
  · rw [if_pos h, if_pos h]
    simp
  · rw [if_neg h, if_neg h]
    simp

/-- C2: when exactly one interval matches the current instant, the merge
performed by `update_kwargs_for_timeout` gives the interval's override
value to every key present in both the specification's options and the
interval's overrides. -/
theorem interval_override_precedence (downloads : DownloadData) (now : Int)
    (extra : Dict) (sectionName : String) (interval : Interval)
    (remaining : Dict) (k : String)
    (hone : downloads.applicableInterval now =
      [(sectionName, interval, remaining)])
    (hnd : (remaining.map Prod.fst).Nodup)
    (_hkextra : k ∈ extra.map Prod.fst)
    (hkrem : k ∈ remaining.map Prod.fst) :
    ∃ timeout merged,
      updateKwargsForTimeout downloads now extra = .ok (timeout, merged) ∧
      dictGet merged k = dictGet remaining k := by
  refine ⟨some (totalSeconds (interval.duration now)),
    dictUpdate extra remaining, ?_, ?_⟩
  · rw [updateKwargsForTimeout, hone]
    rfl
  · exact dictGet_dictUpdate_mem remaining extra k hnd hkrem

/-- C2, witness: specification option `rate=1M` with a matching interval
override `rate=500K` merges to `rate=500K`. -/
theorem interval_override_precedence_witness :
    ∃ timeout merged,
      updateKwargsForTimeout
        ⟨"py", [], [],
          [("limited", ⟨Bound.tod 0, Bound.tod 0⟩, [("rate", some "500K")])]⟩
        0 [("rate", some "1M")] = .ok (timeout, merged) ∧
      dictGet merged "rate" = dictGet [("rate", some "500K")] "rate" :=
  interval_override_precedence
    ⟨"py", [], [],
      [("limited", ⟨Bound.tod 0, Bound.tod 0⟩, [("rate", some "500K")])]⟩
    0 [("rate", some "1M")] "limited" ⟨Bound.tod 0, Bound.tod 0⟩
    [("rate", some "500K")] "rate" (by decide) (by decide) (by decide)
    (by decide)

/-- C3: with interval overrides active and more than one interval matching
the instant, the run produces no events at all — nothing is invoked,
printed, or notified — and, as soon as there is any enabled non-inert
specification for the loop to process, it aborts with the
`Multiple matching intervals.` error raised while building that first
command, i.e. before any external invocation. -/
theorem ambiguity_before_any_invocation (downloads : DownloadData)
    (fs : String → List String) (dlargs : List String)
    (dry useRtouch rtouchAvail : Bool) (now : Int)
    (oracle : Nat → Outcome)
    (hmulti : 1 < (downloads.applicableInterval now).length) :
    (run downloads fs dlargs dry true useRtouch rtouchAvail now
      oracle).events = [] ∧
    (iterEnabledSpecs fs downloads.specs ≠ [] →
      (run downloads fs dlargs dry true useRtouch rtouchAvail now
        oracle).error = some (.config "Multiple matching intervals.")) := by
  rw [run]
  cases h : iterEnabledSpecs fs downloads.specs with
  | nil => exact ⟨rfl, fun hne => absurd rfl hne⟩
  | cons spec rest =>
    rw [runAux, cmdargs_ambiguity spec dlargs downloads now hmulti]
    exact ⟨rfl, fun _ => rfl⟩

/-- C3, witness: a registry with one enabled specification and two
always-matching intervals yields an empty event trace and the ambiguity
error. -/
theorem ambiguity_before_any_invocation_witness :
    (run
      ⟨"py", [⟨"a", some true, some "u", []⟩], [],
        [("i1", ⟨Bound.tod 0, Bound.tod 0⟩, []),
         ("i2", ⟨Bound.tod 0, Bound.tod 0⟩, [])]⟩
      (fun _ => []) [] false true true true 0
      (fun _ => .completed 0)).events = [] ∧
    (run
      ⟨"py", [⟨"a", some true, some "u", []⟩], [],
        [("i1", ⟨Bound.tod 0, Bound.tod 0⟩, []),
         ("i2", ⟨Bound.tod 0, Bound.tod 0⟩, [])]⟩
      (fun _ => []) [] false true true true 0
      (fun _ => .completed 0)).error =
      some (.config "Multiple matching intervals.") :=
  ⟨(ambiguity_before_any_invocation _ (fun _ => []) [] false true true 0
      (fun _ => .completed 0) (by decide)).1,
   (ambiguity_before_any_invocation _ (fun _ => []) [] false true true 0
      (fun _ => .completed 0) (by decide)).2 (by decide)⟩

/-- C4: `duration(t)` is `to - t` when `t <= to` (with a time-of-day `to`
normalized to `t`'s date) and `(next_midnight - t) + ((to + 1 day) -
next_midnight)` otherwise; the wrapping example `to=01:00`, `t=23:30`
yields exactly 1.5 hours (5400 seconds); and when exactly one interval
matches, `run_kwargs['timeout']` is set to `duration(now)` in total
seconds. -/
theorem duration_characterization :
    (∀ (i : Interval) (t : Int),
      i.duration t =
        if t ≤ resolveBound i.to_dt t then resolveBound i.to_dt t - t
        else (nextMidnight t - t) +
          ((resolveBound i.to_dt t + dayUs) - nextMidnight t)) ∧
    (Interval.duration ⟨Bound.tod 82800000000, Bound.tod 3600000000⟩
        84600000000 = 5400000000 ∧
      totalSeconds
        (Interval.duration ⟨Bound.tod 82800000000, Bound.tod 3600000000⟩
          84600000000) = 5400) ∧
    (∀ (downloads : DownloadData) (now : Int) (extra : Dict)
        (sectionName : String) (interval : Interval) (remaining : Dict),
      downloads.applicableInterval now =
          [(sectionName, interval, remaining)] →
      updateKwargsForTimeout downloads now extra =
        .ok (some (totalSeconds (interval.duration now)),
          dictUpdate extra remaining)) := by
  refine ⟨fun i t => rfl, ⟨by decide, ?_⟩, ?_⟩
  · have h : Interval.duration ⟨Bound.tod 82800000000, Bound.tod 3600000000⟩
        84600000000 = 5400000000 := by decide
    rw [h, totalSeconds]
    norm_num
  · intro downloads now extra sectionName interval remaining hone
    rw [updateKwargsForTimeout, hone]
    rfl

/-- C4, witness: the timeout conjunct applied to a concrete registry with
a single always-matching interval. -/
theorem duration_characterization_witness :
    updateKwargsForTimeout
      ⟨"py", [], [],
        [("night", ⟨Bound.tod 0, Bound.tod 0⟩, [("rate", some "500K")])]⟩
      0 [] =
      .ok (some (totalSeconds
          (Interval.duration ⟨Bound.tod 0, Bound.tod 0⟩ 0)),
        dictUpdate [] [("rate", some "500K")]) :=
  duration_characterization.2.2
    ⟨"py", [], [],
      [("night", ⟨Bound.tod 0, Bound.tod 0⟩, [("rate", some "500K")])]⟩
    0 [] "night" ⟨Bound.tod 0, Bound.tod 0⟩ [("rate", some "500K")]
    (by decide)

/-- C5: sorting with the jump-list key (`spec_order`) permutes the
specifications into non-decreasing key order — jump-listed names, whose
keys are their 0-based jump positions (always below `jumps.length`), come
before all unlisted names, whose key is the infinite sentinel (modelled as
`jumps.length`) — and the sort is stable: for each key value the matching
specifications keep their original relative order.  The spec's example
`jump_list=['b','a']` over discovered order `['a','b','c']` sorts to
`['b','a','c']`. -/
theorem spec_order_sort_characterization :
    (∀ (jumps : List String) (specs : List Spec),
      List.Perm (sortSpecs jumps specs) specs ∧
      (sortSpecs jumps specs).Pairwise
        (fun a b => specOrderKey jumps a ≤ specOrderKey jumps b) ∧
      ∀ n : Nat,
        (sortSpecs jumps specs).filter
            (fun s => specOrderKey jumps s == n) =
          specs.filter (fun s => specOrderKey jumps s == n)) ∧
    (∀ (jumps : List String) (s : Spec) (i : Nat),
      listIndex s.name jumps = some i →
        specOrderKey jumps s = i ∧ i < jumps.length) ∧
    (∀ (jumps : List String) (s : Spec),
      listIndex s.name jumps = none →
        specOrderKey jumps s = jumps.length) ∧
    (sortSpecs ["b", "a"]
        [⟨"a", some true, none, []⟩, ⟨"b", some true, none, []⟩,
         ⟨"c", some true, none, []⟩]).map Spec.name = ["b", "a", "c"] := by
  exact ⟨fun jumps specs => ⟨perm_stableSortByKey _ specs,
      pairwise_stableSortByKey _ specs,
      fun n => filter_stableSortByKey _ specs n⟩,
    fun jumps s i h =>
      ⟨by simp [specOrderKey, h], listIndex_lt_length s.name jumps i h⟩,
    fun jumps s h => by simp [specOrderKey, h], by decide⟩

/-- C5, witness: the jump-position conjunct applied to a concrete
specification named in the jump list. -/
theorem spec_order_sort_characterization_witness :
    specOrderKey ["b", "a"] ⟨"a", some true, none, []⟩ = 1 ∧
    1 < (["b", "a"] : List String).length :=
  spec_order_sort_characterization.2.1 ["b", "a"]
    ⟨"a", some true, none, []⟩ 1 (by decide)

/-- C6: the assembled argument vector is exactly the executable invocation
base `[exe, '-m', 'yt_dlp']`, then for each `(key, value)` of the merged
options in order — skipping null values and the `urls` key — a `--key`
token followed by the value token unless the value is the `:flag:`
marker, then the caller-supplied pass-through arguments verbatim, and
finally the `urls` value as the last token when it is set (truthy); `urls`
is only ever emitted there, never as a `--urls` flag. -/
theorem cmdargs_argument_vector (exe : String) (extra : Dict)
    (dlargs : List String) (urls : Option String) :
    buildArgVector exe extra dlargs urls =
      [exe, "-m", "yt_dlp"] ++ specOptionTokens extra ++ dlargs ++
        (if truthyStr urls then [urls.getD ""] else []) := by
  rw [buildArgVector, addRemaining_eq_append]
  by_cases h : truthyStr urls = true
  · rw [if_pos h, if_pos h]
  · rw [if_neg h, if_neg h]
    simp

/-- C7: every specification the run loop invokes (or prints in dry mode)
comes from the registry, is enabled, and is not inert: it has truthy
`urls`, or a truthy `batch` option naming a file with at least one line
that, stripped, is neither blank nor a `#` comment. -/
theorem run_only_enabled_non_inert (downloads : DownloadData)
    (fs : String → List String) (dlargs : List String)
    (dry useIntervals useRtouch rtouchAvail : Bool) (now : Int)
    (oracle : Nat → Outcome) (n : String)
    (h : Event.invoked n ∈ (run downloads fs dlargs dry useIntervals
            useRtouch rtouchAvail now oracle).events ∨
         Event.printed n ∈ (run downloads fs dlargs dry useIntervals
            useRtouch rtouchAvail now oracle).events) :
    ∃ s ∈ downloads.specs, s.name = n ∧
      truthyEnabled s.enabled = true ∧
      (truthyStr s.urls = true ∨
        ∃ b, s.getBatch = some b ∧ b.isEmpty = false ∧
          hasNonEmpty (fs b) = true) := by
  rcases runAux_event_of_mem downloads dlargs dry useIntervals useRtouch
      rtouchAvail now oracle (iterEnabledSpecs fs downloads.specs) 0 n h
    with ⟨s, hs, hn⟩
  rcases List.mem_filter.1 hs with ⟨hmem, hpred⟩
  simp only [Bool.and_eq_true, Bool.or_eq_true] at hpred
  refine ⟨s, hmem, hn, ?_, ?_⟩
  · exact hpred.1
  · rcases hpred.2 with hu | hb
    · exact Or.inl hu
    · cases hgb : s.getBatch with
      | none => rw [hgb] at hb; cases hb
      | some b =>
        rw [hgb] at hb
        simp only [Bool.and_eq_true] at hb
        exact Or.inr ⟨b, rfl, by simpa using hb.1, hb.2⟩

/-- C7, witness: a concrete run invoking one enabled specification with a
truthy `urls`. -/
theorem run_only_enabled_non_inert_witness :
    ∃ s ∈ [(⟨"a", some true, some "u", []⟩ : Spec)], s.name = "a" ∧
      truthyEnabled s.enabled = true ∧
      (truthyStr s.urls = true ∨
        ∃ b, s.getBatch = some b ∧ b.isEmpty = false ∧
          hasNonEmpty ((fun _ => ([] : List String)) b) = true) :=
  run_only_enabled_non_inert
    ⟨"py", [⟨"a", some true, some "u", []⟩], [], []⟩ (fun _ => [])
    [] false false true true 0 (fun _ => .completed 0) "a"
    (Or.inl (by decide))

/-- C8: in the (non-dry) run loop, a `TimeoutExpired` from the current
invocation is swallowed — the trace is the invocation event followed by
whatever the loop does with the remaining specifications, with no
`rtouch` notification for the timed-out one — while a `KeyboardInterrupt`
ends the loop cleanly: the remaining specifications contribute nothing
and no error propagates (events of specifications already completed
before this point are outside this suffix and are untouched). -/
theorem timeout_swallowed_interrupt_aborts (downloads : DownloadData)
    (dlargs : List String) (useIntervals useRtouch rtouchAvail : Bool)
    (now : Int) (oracle : Nat → Outcome) (spec : Spec) (rest : List Spec)
    (idx : Nat) (p : List String × Option ℚ)
    (hc : spec.cmdargs dlargs downloads useIntervals now = .ok p) :
    (oracle idx = .timedOut →
      runAux downloads dlargs false useIntervals useRtouch rtouchAvail now
          oracle (spec :: rest) idx =
        ⟨Event.invoked spec.name ::
            (runAux downloads dlargs false useIntervals useRtouch
              rtouchAvail now oracle rest (idx + 1)).events,
          (runAux downloads dlargs false useIntervals useRtouch rtouchAvail
            now oracle rest (idx + 1)).error⟩) ∧
    (oracle idx = .interrupted →
      runAux downloads dlargs false useIntervals useRtouch rtouchAvail now
          oracle (spec :: rest) idx =
        ⟨[Event.invoked spec.name], none⟩) := by
  refine ⟨fun ho => ?_, fun ho => ?_⟩ <;>
    rw [runAux, hc] <;> simp [ho]

/-- C8, witness: a concrete one-specification suffix whose invocation
times out. -/
theorem timeout_swallowed_interrupt_aborts_witness :
    runAux ⟨"py", [⟨"a", some true, some "u", []⟩], [], []⟩ [] false false
        true true 0 (fun _ => .timedOut)
        [⟨"a", some true, some "u", []⟩] 0 =
      ⟨Event.invoked "a" ::
          (runAux ⟨"py", [⟨"a", some true, some "u", []⟩], [], []⟩ []
            false false true true 0 (fun _ => .timedOut) [] 1).events,
        (runAux ⟨"py", [⟨"a", some true, some "u", []⟩], [], []⟩ []
          false false true true 0 (fun _ => .timedOut) [] 1).error⟩ :=
  (timeout_swallowed_interrupt_aborts
    ⟨"py", [⟨"a", some true, some "u", []⟩], [], []⟩ [] false true true 0
    (fun _ => .timedOut) ⟨"a", some true, some "u", []⟩ [] 0
    (buildArgVector "py" [] [] (some "u"), none) rfl).1 rfl

/-- C9, counterexample: the loop runs the external process without exit
status checking, so a non-zero exit status does not propagate and does
not abort the run — here the first specification exits with status 1, yet
the second is still invoked, the post-success hook fires for both, and
the run ends without error. -/
theorem nonzero_exit_not_fatal_counterexample :
    (fun i => if i = 0 then Outcome.completed 1 else Outcome.completed 0)
        0 = Outcome.completed 1 ∧
    run
        ⟨"py", [⟨"a", some true, some "u", []⟩,
          ⟨"b", some true, some "u", []⟩], [], []⟩
        (fun _ => []) [] false false true true 0
        (fun i => if i = 0 then Outcome.completed 1
          else Outcome.completed 0) =
      ⟨[Event.invoked "a", Event.notified "a", Event.invoked "b",
        Event.notified "b"], none⟩ := by
  exact ⟨rfl, rfl⟩

/-- C9, amended: an OS-level error launching the process propagates as a
fatal error that aborts the run; a non-zero exit status, however, is not
detected — any completed process, whatever its return code, is treated
like success: the loop fires the notification hook (when enabled) and
proceeds to the remaining specifications. -/
theorem launch_error_fatal_nonzero_exit_not (downloads : DownloadData)
    (dlargs : List String) (useIntervals useRtouch rtouchAvail : Bool)
    (now : Int) (oracle : Nat → Outcome) (spec : Spec) (rest : List Spec)
    (idx : Nat) (p : List String × Option ℚ)
    (hc : spec.cmdargs dlargs downloads useIntervals now = .ok p) :
    (oracle idx = .launchError →
      runAux downloads dlargs false useIntervals useRtouch rtouchAvail now
          oracle (spec :: rest) idx =
        ⟨[Event.invoked spec.name], some .launch⟩) ∧
    (∀ rc : Int, oracle idx = .completed rc →
      runAux downloads dlargs false useIntervals useRtouch rtouchAvail now
          oracle (spec :: rest) idx =
        ⟨Event.invoked spec.name ::
            ((if useRtouch && rtouchAvail then [Event.notified spec.name]
              else []) ++
              (runAux downloads dlargs false useIntervals useRtouch
                rtouchAvail now oracle rest (idx + 1)).events),
          (runAux downloads dlargs false useIntervals useRtouch rtouchAvail
            now oracle rest (idx + 1)).error⟩) := by
  refine ⟨fun ho => ?_, fun rc ho => ?_⟩ <;>
    rw [runAux, hc] <;> simp [ho]

/-- C9, witness: a concrete one-specification suffix whose launch fails
with an OS error. -/
theorem launch_error_fatal_nonzero_exit_not_witness :
    runAux ⟨"py", [⟨"a", some true, some "u", []⟩], [], []⟩ [] false false
        true true 0 (fun _ => .launchError)
        [⟨"a", some true, some "u", []⟩] 0 =
      ⟨[Event.invoked "a"], some .launch⟩ :=
  (launch_error_fatal_nonzero_exit_not
    ⟨"py", [⟨"a", some true, some "u", []⟩], [], []⟩ [] false true true 0
    (fun _ => .launchError) ⟨"a", some true, some "u", []⟩ [] 0
    (buildArgVector "py" [] [] (some "u"), none) rfl).1 rfl

/-- C10: a specification section with no `enabled` key parses without any
error — `safepop`'s `getboolean` resolves to the `None` default — and the
resulting specification, having `enabled = None`, is dropped by
`iter_enabled_specs` exactly like a disabled one, whatever registry it is
put in; so the `enabled` key is not enforced at parse time. -/
theorem missing_enabled_null_and_skipped (name : String) (s : Section)
    (h : sectionGet s "enabled" = none) :
    ∃ spec : Spec, parseSpec name s = .ok spec ∧ spec.enabled = none ∧
      ∀ (fs : String → List String) (specs : List Spec),
        spec ∉ iterEnabledSpecs fs specs := by
  refine ⟨⟨name, none, sectionGet (sectionDel s "enabled") "urls",
    (sectionDel (sectionDel s "enabled") "urls").map
      (fun p => (p.1, some p.2))⟩, ?_, rfl, ?_⟩
  · unfold parseSpec
    rw [h]
    rfl
  · intro fs specs hmem
    rcases List.mem_filter.1 hmem with ⟨_, hpred⟩
    simp [truthyEnabled] at hpred

/-- C10, witness: a concrete section holding only `urls` parses to a
specification with null `enabled` that every run loop skips. -/
theorem missing_enabled_null_and_skipped_witness :
    ∃ spec : Spec, parseSpec "mysection" [("urls", "u")] = .ok spec ∧
      spec.enabled = none ∧
      ∀ (fs : String → List String) (specs : List Spec),
        spec ∉ iterEnabledSpecs fs specs :=
  missing_enabled_null_and_skipped "mysection" [("urls", "u")] rfl

end Myutils
